import Mathlib

/-!
Verification of the overtime attribution engine (after15-core).

Shallow embedding conventions:
* A `chrono::NaiveDate` is modelled as the number of days since 1970-01-01
  (an `Int`).  1970-01-01 was a Thursday.
* A `chrono::NaiveDateTime` is modelled as the number of seconds since
  1970-01-01 00:00:00 (an `Int`); its date is `t / 86400` (floor division,
  as in the proleptic Gregorian calendar) and its time of day is
  `t % 86400` seconds.
* `f64` values that hold hour amounts are modelled as exact rationals `ℚ`.
* Rust `HashMap`s are modelled as association lists; `insert` replaces the
  value of an existing key in place, `entry().or_insert(..) += ..`
  accumulates in place.  HashMap iteration order is unspecified in Rust;
  every theorem below is insensitive to the order except where a comment
  says otherwise.
* String-keyed date maps of the ledger (`"%Y-%m-%d"` keys) are keyed
  directly by the date value, since formatting and re-parsing a valid date
  is the identity; month keys `"YYYY-MM"` become `(year, month)` pairs.
-/

/-! ### Calendar arithmetic (model of chrono date conversions) -/

/-- Days-from-civil conversion (proleptic Gregorian calendar, Hinnant's
algorithm with floor division).  Models `NaiveDate::from_ymd_opt`. -/
def daysFromCivil (y m d : ℤ) : ℤ :=
  let y' := y - (if m ≤ 2 then 1 else 0)
  let era := y' / 400
  let yoe := y' - era * 400
  let mp := (m + 9) % 12
  let doy := (153 * mp + 2) / 5 + d - 1
  let doe := yoe * 365 + yoe / 4 - yoe / 100 + doy
  era * 146097 + doe - 719468

/-- Civil-from-days conversion, inverse of `daysFromCivil`.  Models the
`year()` / `month()` / `day()` accessors of `NaiveDate`. -/
def civilFromDays (z : ℤ) : ℤ × ℤ × ℤ :=
  let z' := z + 719468
  let era := z' / 146097
  let doe := z' - era * 146097
  let yoe := (doe - doe / 1461 + doe / 36524 - doe / 146096) / 365
  let y := yoe + era * 400
  let doy := doe - (365 * yoe + yoe / 4 - yoe / 100)
  let mp := (5 * doy + 2) / 153
  let dd := doy - (153 * mp + 2) / 5 + 1
  let mm := mp + (if mp < 10 then 3 else -9)
  (y + (if mm ≤ 2 then 1 else 0), mm, dd)

example : daysFromCivil 1970 1 1 = 0 := by decide
example : daysFromCivil 2025 7 28 = 20297 := by decide
example : daysFromCivil 2025 8 2 = 20302 := by decide
example : civilFromDays 0 = (1970, 1, 1) := by decide
example : civilFromDays 20297 = (2025, 7, 28) := by decide
example : civilFromDays 20304 = (2025, 8, 4) := by decide

/-- The `(year, month)` pair of a date, i.e. the `"YYYY-MM"` month key the
archive derives from a formatted date string. -/
def month_of (d : ℤ) : ℤ × ℤ := ((civilFromDays d).1, (civilFromDays d).2.1)

/-- Weekday number of an epoch day, 0 = Monday .. 6 = Sunday
(1970-01-01, day 0, was a Thursday = 3).  Models `NaiveDate::weekday`. -/
def weekday_num (d : ℤ) : ℤ := (d + 3) % 7

/-! ### src/schedule.rs -/

/-- FIRST_AFTERNOON_START = (2025, 7, 28) as an epoch day. -/
def first_afternoon_start : ℤ := daysFromCivil 2025 7 28

/-- FIRST_AFTERNOON_END = (2025, 8, 2) as an epoch day. -/
def first_afternoon_end : ℤ := daysFromCivil 2025 8 2

/-- CYCLE_LENGTH_DAYS. -/
def CYCLE_LENGTH_DAYS : ℤ := 21

/-- `is_afternoon_shift_period` from src/schedule.rs.  The Rust `/` on
`i64` truncates toward zero, which agrees with Lean's `Int` division on
the non-negative `days_since_first` used here. -/
def is_afternoon_shift_period (date : ℤ) : Bool :=
  let days_since_first := date - first_afternoon_start
  if 0 ≤ days_since_first then
    let cycle_number := days_since_first / CYCLE_LENGTH_DAYS
    let cycle_start := first_afternoon_start + cycle_number * CYCLE_LENGTH_DAYS
    let cycle_end := first_afternoon_end + cycle_number * CYCLE_LENGTH_DAYS
    decide (cycle_start ≤ date ∧ date ≤ cycle_end)
  else
    false

/-- `is_weekend` from src/schedule.rs. -/
def is_weekend (date : ℤ) : Bool :=
  decide (weekday_num date = 5 ∨ weekday_num date = 6)

/-- `is_saturday` from src/schedule.rs. -/
def is_saturday (date : ℤ) : Bool := decide (weekday_num date = 5)

/-- `is_saturday_regular_hours` from src/schedule.rs. -/
def is_saturday_regular_hours (date : ℤ) : Bool :=
  is_saturday date && is_afternoon_shift_period date

/-- `ShiftType` from src/schedule.rs. -/
inductive ShiftType where
  | Regular
  | Afternoon
  | Weekend
  | SaturdayAfternoon
deriving DecidableEq, Repr

/-- `get_shift_type` from src/schedule.rs. -/
def get_shift_type (date : ℤ) : ShiftType :=
  if is_weekend date then
    if is_saturday_regular_hours date then ShiftType.SaturdayAfternoon
    else ShiftType.Weekend
  else if is_afternoon_shift_period date then ShiftType.Afternoon
  else ShiftType.Regular

/-- `WorkWindow` from src/schedule.rs; `wstart`/`wend` are the `start`/`end`
fields (`end` is a Lean keyword), in seconds of day. -/
structure WorkWindow where
  wstart : ℤ
  wend : ℤ
deriving DecidableEq, Repr

/-- `get_regular_work_window` from src/schedule.rs (times of day in
seconds: 06:00 = 21600, 15:00 = 54000, 21:00 = 75600, 08:00 = 28800,
14:00 = 50400). -/
def get_regular_work_window (date : ℤ) : Option WorkWindow :=
  match get_shift_type date with
  | ShiftType.Regular => some ⟨21600, 54000⟩
  | ShiftType.Afternoon => some ⟨54000, 75600⟩
  | ShiftType.SaturdayAfternoon => some ⟨28800, 50400⟩
  | ShiftType.Weekend => none

example : get_shift_type 20297 = ShiftType.Afternoon := by decide
example : get_shift_type 20302 = ShiftType.SaturdayAfternoon := by decide
example : get_shift_type 20304 = ShiftType.Regular := by decide
example : get_shift_type 20310 = ShiftType.Weekend := by decide

/-! ### Claim C6: 21-day periodicity of the shift classification -/

theorem is_afternoon_shift_period_add21 (d : ℤ) (h : first_afternoon_start ≤ d) :
    is_afternoon_shift_period (d + 21) = is_afternoon_shift_period d := by
  have e1 : first_afternoon_start = 20297 := by decide
  have e2 : first_afternoon_end = 20302 := by decide
  have h' : (20297 : ℤ) ≤ d := e1 ▸ h
  unfold is_afternoon_shift_period CYCLE_LENGTH_DAYS
  rw [e1, e2]
  rw [if_pos (by omega), if_pos (by omega)]
  rw [decide_eq_decide]
  omega

theorem weekday_num_add21 (d : ℤ) : weekday_num (d + 21) = weekday_num d := by
  unfold weekday_num
  omega

/-- Claim C6: for every date on or after the anchor date 2025-07-28 (epoch
day 20297), the shift classification is periodic with period 21 days:
`get_shift_type date = get_shift_type (date + 21 days)`. -/
theorem get_shift_type_periodic (d : ℤ) (h : first_afternoon_start ≤ d) :
    get_shift_type d = get_shift_type (d + 21) := by
  have hw : is_weekend (d + 21) = is_weekend d := by
    unfold is_weekend
    rw [weekday_num_add21]
  have hs : is_saturday (d + 21) = is_saturday d := by
    unfold is_saturday
    rw [weekday_num_add21]
  have ha := is_afternoon_shift_period_add21 d h
  unfold get_shift_type is_saturday_regular_hours
  rw [hw, hs, ha]

/-- Witness for C6 at the anchor date itself (2025-07-28, a Monday in the
first afternoon period; 21 days later is 2025-08-18, the second cycle). -/
theorem get_shift_type_periodic_witness :
    first_afternoon_start ≤ 20297 ∧ get_shift_type 20297 = get_shift_type (20297 + 21) :=
  ⟨by decide, get_shift_type_periodic 20297 (by decide)⟩

/-! ### Decimal formatting (model of Rust integer Display / `format!`) -/

/-- A decimal digit character. -/
def digit_char (n : ℕ) : Char := Char.ofNat (48 + n % 10)

/-- Fuel-based decimal digit emission (fuel ≥ 1 + number of digits). -/
def nat_digits_core : ℕ → ℕ → List Char → List Char
  | 0, _, acc => acc
  | fuel + 1, n, acc =>
    if n < 10 then digit_char n :: acc
    else nat_digits_core fuel (n / 10) (digit_char (n % 10) :: acc)

/-- Decimal representation of a natural number, as Rust `format!` prints
`u64`/`usize` values. -/
def nat_repr (n : ℕ) : String := String.mk (nat_digits_core (n + 1) n [])

/-- Decimal representation of an integer, as Rust prints `i64` values:
a leading minus sign exactly for negative values. -/
def int_repr (i : ℤ) : String :=
  (if i < 0 then "-" else "") ++ nat_repr i.natAbs

/-- Zero-padding to width 2, as Rust's `{:02}` format specifier. -/
def pad2 (n : ℕ) : String := if n < 10 then "0" ++ nat_repr n else nat_repr n

example : nat_repr 0 = "0" := by decide
example : nat_repr 2049 = "2049" := by decide
example : int_repr (-15) = "-15" := by decide
example : pad2 7 = "07" := by decide

/-! ### `format_hm` (src/archive.rs lines 90-95 and src/report.rs 379-384) -/

/-- Rust `f64::round`: round to nearest, ties away from zero. -/
def round_ties_away (q : ℚ) : ℤ :=
  if 0 ≤ q then ⌊q + 1/2⌋ else ⌈q - 1/2⌉

/-- `format_hm` from src/archive.rs / src/report.rs: total minutes are
rounded from `hours * 60`; `h` is Rust `i64` division (truncation toward
zero, `Int.tdiv`); `m` is `total_minutes.abs() % 60`. -/
def format_hm (hours : ℚ) : String :=
  let total_minutes := round_ties_away (hours * 60)
  let h := Int.tdiv total_minutes 60
  let m := total_minutes.natAbs % 60
  int_repr h ++ ":" ++ pad2 m

/-! ### Claim C9: shape of `format_hm` output -/

theorem digit_char_ne_dash (n : ℕ) : digit_char n ≠ '-' := by
  unfold digit_char
  have h : n % 10 < 10 := Nat.mod_lt _ (by norm_num)
  generalize hr : n % 10 = r at *
  interval_cases r <;> decide

theorem mem_nat_digits_core (fuel : ℕ) : ∀ (n : ℕ) (acc : List Char) (c : Char),
    c ∈ nat_digits_core fuel n acc → c ∈ acc ∨ ∃ k, c = digit_char k := by
  induction fuel with
  | zero => intro n acc c hc; exact Or.inl hc
  | succ fuel ih =>
    intro n acc c hc
    unfold nat_digits_core at hc
    by_cases h : n < 10
    · rw [if_pos h] at hc
      rcases List.mem_cons.mp hc with h1 | h1
      · exact Or.inr ⟨n, h1⟩
      · exact Or.inl h1
    · rw [if_neg h] at hc
      rcases ih _ _ _ hc with h1 | h1
      · rcases List.mem_cons.mp h1 with h2 | h2
        · exact Or.inr ⟨n % 10, h2⟩
        · exact Or.inl h2
      · exact Or.inr h1

theorem dash_not_mem_nat_repr (n : ℕ) : '-' ∉ (nat_repr n).data := by
  intro hmem
  rcases mem_nat_digits_core (n + 1) n [] '-' hmem with h | ⟨k, hk⟩
  · exact List.not_mem_nil _ h
  · exact digit_char_ne_dash k hk.symm

theorem dash_mem_int_repr (i : ℤ) : '-' ∈ (int_repr i).data ↔ i < 0 := by
  unfold int_repr
  by_cases h : i < 0
  · rw [if_pos h]
    constructor
    · intro _
      exact h
    · intro _
      exact List.mem_cons_self _ _
  · rw [if_neg h]
    constructor
    · intro hmem
      exact absurd hmem (dash_not_mem_nat_repr _)
    · intro hlt
      exact absurd hlt h

theorem dash_not_mem_pad2 (n : ℕ) : '-' ∉ (pad2 n).data := by
  unfold pad2
  by_cases h : n < 10
  · rw [if_pos h]
    intro hmem
    rcases List.mem_cons.mp hmem with h1 | h1
    · exact absurd h1 (by decide)
    · exact dash_not_mem_nat_repr n h1
  · rw [if_neg h]
    exact dash_not_mem_nat_repr n

theorem tdiv_sixty_neg_iff (a : ℤ) : Int.tdiv a 60 < 0 ↔ a ≤ -60 := by
  rcases a with n | m
  · rw [show Int.tdiv (Int.ofNat n) 60 = Int.ofNat (n / 60) from rfl]
    rw [Int.ofNat_eq_natCast, Int.ofNat_eq_natCast]
    omega
  · rw [show Int.tdiv (Int.negSucc m) 60 = -Int.ofNat (m.succ / 60) from rfl]
    rw [Int.ofNat_eq_natCast, Int.negSucc_eq]
    omega

theorem string_data_append (x y : String) : (x ++ y).data = x.data ++ y.data := by
  rcases x with ⟨a⟩
  rcases y with ⟨b⟩
  rfl

/-- Claim C9 counterexample: the negative value -0.5 h rounds to -30 total
minutes; Rust's truncating division gives `h = -30 / 60 = 0`, so the
output is "0:30" and the minus sign of the negative value is not visible,
contradicting the claim that the sign is always visible. -/
theorem format_hm_negative_sign_counterexample :
    (-(1:ℚ)/2) < 0 ∧ format_hm (-(1:ℚ)/2) = "0:30" ∧ '-' ∉ ("0:30").data := by
  refine ⟨by norm_num, ?_, by decide⟩
  have h1 : ((-(1:ℚ)/2) * 60) = -30 := by norm_num
  have h2 : round_ties_away (-30 : ℚ) = -30 := by
    unfold round_ties_away
    rw [if_neg (by norm_num)]
    rw [show ((-30 : ℚ) - 1/2) = -(61/2) by norm_num, Int.ceil_neg]
    norm_num
  simp only [format_hm, h1, h2]
  decide

/-- Claim C9 (amended): `format_hm` prints rounded total minutes as
`h:mm` with `h` the truncating division of the rounded minutes by 60 and
`mm` the zero-padded absolute remainder; a minus sign appears in the
output if and only if the rounded total minutes are at most -60 (one full
negative hour).  Negative values rounding to minutes in (-60, 0) print
without any sign. -/
theorem format_hm_sign_iff (q : ℚ) :
    ('-' ∈ (format_hm q).data) ↔ round_ties_away (q * 60) ≤ -60 := by
  simp only [format_hm]
  rw [string_data_append, string_data_append]
  rw [List.mem_append, List.mem_append]
  constructor
  · rintro ((hm | hm) | hm)
    · exact (tdiv_sixty_neg_iff _).mp ((dash_mem_int_repr _).mp hm)
    · exact absurd hm (by decide)
    · exact absurd hm (dash_not_mem_pad2 _)
  · intro h60
    exact Or.inl (Or.inl ((dash_mem_int_repr _).mpr ((tdiv_sixty_neg_iff _).mpr h60)))

/-! ### src/jsonl.rs — session reconstruction -/

/-- `TimestampRecord` from src/jsonl.rs (timestamp in epoch seconds). -/
structure TimestampRecord where
  timestamp : ℤ
  project : String
deriving DecidableEq, Repr

/-- `Session` from src/jsonl.rs.  `project_counts` is the per-source event
count HashMap, modelled as an association list. -/
structure Session where
  id : String
  project : String
  project_counts : List (String × ℕ)
  start_time : ℤ
  end_time : ℤ
  duration_seconds : ℤ
deriving DecidableEq, Repr

/-- SESSION_GAP_SECONDS = 30 * 60 from src/jsonl.rs. -/
def SESSION_GAP_SECONDS : ℤ := 30 * 60

/-- MIN_SESSION_SECONDS = 5 * 60 from src/jsonl.rs. -/
def MIN_SESSION_SECONDS : ℤ := 5 * 60

/-- `*session_projects.entry(project).or_insert(0) += 1` on the
association-list model of the per-source count map. -/
def bump_count (k : String) : List (String × ℕ) → List (String × ℕ)
  | [] => [(k, 1)]
  | (k', v) :: rest =>
    if k' = k then (k', v + 1) :: rest else (k', v) :: bump_count k rest

/-- The `max_by_key` dominant-project selection.  Rust iterates the
HashMap in unspecified order; we take the first maximum in list order
(no theorem below depends on the tie-break). -/
def dominant_project (counts : List (String × ℕ)) : String :=
  match counts.foldl
      (fun best p =>
        match best with
        | none => some p
        | some q => if p.2 > q.2 then some p else some q)
      none with
  | some p => p.1
  | none => "unknown"

/-- State of the scan loop in `build_sessions_from_records`. -/
structure BuildState where
  session_start : ℤ
  session_end : ℤ
  session_projects : List (String × ℕ)
  session_count : ℕ
  sessions : List Session
deriving Repr

/-- The `Session` committed from the current open-session state
(the `sessions.push(Session { .. })` in src/jsonl.rs). -/
def mk_session (st : BuildState) : Session :=
  { id := "global-" ++ nat_repr st.session_count
    project := dominant_project st.session_projects
    project_counts := st.session_projects
    start_time := st.session_start
    end_time := st.session_end
    duration_seconds := st.session_end - st.session_start }

/-- One iteration of the `for i in 1..records.len()` loop of
`build_sessions_from_records`: on a gap strictly greater than
SESSION_GAP_SECONDS the open session is closed (committed only if its
duration reaches MIN_SESSION_SECONDS) and restarted; in every case the
open session is then extended with the record. -/
def build_step (st : BuildState) (r : TimestampRecord) : BuildState :=
  let gap := r.timestamp - st.session_end
  let st1 :=
    if gap > SESSION_GAP_SECONDS then
      let duration := st.session_end - st.session_start
      if duration ≥ MIN_SESSION_SECONDS then
        { session_start := r.timestamp
          session_end := st.session_end
          session_projects := []
          session_count := st.session_count + 1
          sessions := st.sessions ++ [mk_session st] }
      else
        { session_start := r.timestamp
          session_end := st.session_end
          session_projects := []
          session_count := st.session_count
          sessions := st.sessions }
    else st
  { st1 with
      session_end := r.timestamp
      session_projects := bump_count r.project st1.session_projects }

/-- `build_sessions_from_records` from src/jsonl.rs. -/
def build_sessions_from_records (records : List TimestampRecord) : List Session :=
  match records with
  | [] => []
  | r0 :: rest =>
    let st0 : BuildState :=
      { session_start := r0.timestamp
        session_end := r0.timestamp
        session_projects := [(r0.project, 1)]
        session_count := 0
        sessions := [] }
    let stF := rest.foldl build_step st0
    if stF.session_end - stF.session_start ≥ MIN_SESSION_SECONDS then
      stF.sessions ++ [mk_session stF]
    else
      stF.sessions

/-! ### Claim C4: strict gap threshold -/

theorem build_step_eq (st : BuildState) (r : TimestampRecord) :
    build_step st r =
      if SESSION_GAP_SECONDS < r.timestamp - st.session_end then
        if MIN_SESSION_SECONDS ≤ st.session_end - st.session_start then
          { session_start := r.timestamp
            session_end := r.timestamp
            session_projects := [(r.project, 1)]
            session_count := st.session_count + 1
            sessions := st.sessions ++ [mk_session st] }
        else
          { session_start := r.timestamp
            session_end := r.timestamp
            session_projects := [(r.project, 1)]
            session_count := st.session_count
            sessions := st.sessions }
      else
        { st with
            session_end := r.timestamp
            session_projects := bump_count r.project st.session_projects } := by
  simp only [build_step]
  by_cases hg : SESSION_GAP_SECONDS < r.timestamp - st.session_end
  · rw [if_pos hg, if_pos hg]
    by_cases hd : MIN_SESSION_SECONDS ≤ st.session_end - st.session_start
    · rw [if_pos hd, if_pos hd]
      rfl
    · rw [if_neg hd, if_neg hd]
      rfl
  · rw [if_neg hg, if_neg hg]

/-- Claim C4: scanning a consecutive pair of events, a new session is
started (open-session start reset to the new event, per-source counts
restarted at this single event) precisely when the event's timestamp
minus the current session end exceeds 1800 s strictly; when the gap is at
most 1800 s — in particular exactly 1800 s — the open session is extended
instead: its start and the committed-session list are unchanged and its
end becomes the event's timestamp. -/
theorem session_gap_threshold_strict (st : BuildState) (r : TimestampRecord) :
    (SESSION_GAP_SECONDS < r.timestamp - st.session_end →
       (build_step st r).session_start = r.timestamp ∧
       (build_step st r).session_projects = [(r.project, 1)]) ∧
    (r.timestamp - st.session_end ≤ SESSION_GAP_SECONDS →
       (build_step st r).session_start = st.session_start ∧
       (build_step st r).sessions = st.sessions ∧
       (build_step st r).session_end = r.timestamp ∧
       (build_step st r).session_projects = bump_count r.project st.session_projects) ∧
    (r.timestamp - st.session_end = SESSION_GAP_SECONDS →
       (build_step st r).session_start = st.session_start ∧
       (build_step st r).sessions = st.sessions) := by
  rw [build_step_eq]
  refine ⟨fun hgt => ?_, fun hle => ?_, fun heq => ?_⟩
  · rw [if_pos hgt]
    by_cases hd : MIN_SESSION_SECONDS ≤ st.session_end - st.session_start
    · rw [if_pos hd]
      exact ⟨rfl, rfl⟩
    · rw [if_neg hd]
      exact ⟨rfl, rfl⟩
  · rw [if_neg (by omega)]
    exact ⟨rfl, rfl, rfl, rfl⟩
  · rw [if_neg (by omega)]
    exact ⟨rfl, rfl⟩

/-- Witness for C4 at a concrete gap of exactly 1800 s: the open session
is kept. -/
theorem session_gap_threshold_strict_witness :
    (build_step
        { session_start := 0, session_end := 0,
          session_projects := [("a", 1)], session_count := 0, sessions := [] }
        { timestamp := 1800, project := "b" }).session_start = 0 ∧
    (build_step
        { session_start := 0, session_end := 0,
          session_projects := [("a", 1)], session_count := 0, sessions := [] }
        { timestamp := 1800, project := "b" }).sessions = [] :=
  (session_gap_threshold_strict _ _).2.2 (by decide)

/-! ### Claim C5: every retained session lasts at least MIN_SESSION_SECONDS -/

theorem build_step_preserves_min_duration (st : BuildState) (r : TimestampRecord)
    (h : ∀ s ∈ st.sessions,
        MIN_SESSION_SECONDS ≤ s.duration_seconds ∧
        s.duration_seconds = s.end_time - s.start_time) :
    ∀ s ∈ (build_step st r).sessions,
        MIN_SESSION_SECONDS ≤ s.duration_seconds ∧
        s.duration_seconds = s.end_time - s.start_time := by
  intro s hs
  rw [build_step_eq] at hs
  split at hs
  · split at hs
    · rcases List.mem_append.mp hs with h1 | h1
      · exact h s h1
      · have h2 := List.mem_singleton.mp h1
        subst h2
        rename_i hd
        exact ⟨hd, rfl⟩
    · exact h s hs
  · exact h s hs

theorem foldl_build_step_min_duration (l : List TimestampRecord) :
    ∀ (st : BuildState),
      (∀ s ∈ st.sessions,
          MIN_SESSION_SECONDS ≤ s.duration_seconds ∧
          s.duration_seconds = s.end_time - s.start_time) →
      ∀ s ∈ (l.foldl build_step st).sessions,
          MIN_SESSION_SECONDS ≤ s.duration_seconds ∧
          s.duration_seconds = s.end_time - s.start_time := by
  induction l with
  | nil => intro st h; exact h
  | cons r rest ih =>
    intro st h
    exact ih (build_step st r) (build_step_preserves_min_duration st r h)

/-- Claim C5: every session produced by `build_sessions_from_records` has
duration (= end minus start) of at least 300 s; shorter candidates,
including the zero-duration session of a single isolated event, are never
in the output. -/
theorem retained_session_min_duration (records : List TimestampRecord)
    (s : Session) (hs : s ∈ build_sessions_from_records records) :
    MIN_SESSION_SECONDS ≤ s.duration_seconds ∧
    s.duration_seconds = s.end_time - s.start_time := by
  cases records with
  | nil => exact absurd hs (List.not_mem_nil _)
  | cons r0 rest =>
    simp only [build_sessions_from_records] at hs
    have hfold := foldl_build_step_min_duration rest
      { session_start := r0.timestamp
        session_end := r0.timestamp
        session_projects := [(r0.project, 1)]
        session_count := 0
        sessions := [] }
      (fun s hs' => absurd hs' (List.not_mem_nil _))
    split at hs
    · rcases List.mem_append.mp hs with h1 | h1
      · exact hfold s h1
      · have h2 := List.mem_singleton.mp h1
        subst h2
        rename_i hd
        exact ⟨hd, rfl⟩
    · exact hfold s hs

/-- Witness for C5: two events 400 s apart form one retained session of
duration 400 ≥ 300, and it satisfies the theorem's bound. -/
theorem retained_session_min_duration_witness :
    MIN_SESSION_SECONDS ≤ (Session.mk "global-0" "a" [("a", 2)] 0 400 400).duration_seconds ∧
    (Session.mk "global-0" "a" [("a", 2)] 0 400 400).duration_seconds =
      (Session.mk "global-0" "a" [("a", 2)] 0 400 400).end_time -
      (Session.mk "global-0" "a" [("a", 2)] 0 400 400).start_time :=
  retained_session_min_duration
    [⟨0, "a"⟩, ⟨400, "a"⟩]
    (Session.mk "global-0" "a" [("a", 2)] 0 400 400)
    (by decide)

/-! ### src/overtime.rs — the overtime slicer

The session's start/end instants are stored as UTC-like naive datetimes
and converted through `and_utc().with_timezone(&Warsaw).naive_local()`
(overtime.rs lines 14-15).  Europe/Warsaw observes daylight-saving time,
so this localization is NOT a fixed-offset translation: `warsaw_offset`
below models the IANA Europe/Warsaw rule of the era the program's data
lives in (since 1996: UTC+1, switching to UTC+2 between the last Sunday
of March at 01:00 UTC and the last Sunday of October at 01:00 UTC).
`slice_overtime_local` is the slicing loop that runs on the localized
instants; `calculate_session_overtime` composes the two as the source
does. -/

/-- The calendar date (epoch day) of a datetime in seconds,
`NaiveDateTime::date`. -/
def date_of (t : ℤ) : ℤ := t / 86400

/-- The time of day in seconds, `NaiveDateTime::time`. -/
def time_of_day (t : ℤ) : ℤ := t % 86400

/-- `calculate_overtime_for_day` from src/overtime.rs: overtime seconds
contributed by the block `[start, end]` (times of day in seconds) on
`date`. -/
def calculate_overtime_for_day (date ts te : ℤ) : ℤ :=
  match get_shift_type date with
  | ShiftType.Weekend => te - ts
  | _ =>
    match get_regular_work_window date with
    | some window =>
      (if ts < window.wstart then min te window.wstart - ts else 0) +
      (if te > window.wend then te - max ts window.wend else 0)
    | none => te - ts

/-- `*daily.entry(date).or_insert(0.0) += hours` on the association-list
model of the per-date hour map. -/
def add_hours (k : ℤ) (h : ℚ) : List (ℤ × ℚ) → List (ℤ × ℚ)
  | [] => [(k, h)]
  | (k', v) :: rest =>
    if k' = k then (k', v + h) :: rest else (k', v) :: add_hours k h rest

/-- The `while current_date <= end_date` loop of
`calculate_session_overtime`, with the number of remaining dates as fuel
and the accumulated per-date map threaded through. -/
def slice_loop (start_local end_local : ℤ) : ℕ → ℤ → List (ℤ × ℚ) → List (ℤ × ℚ)
  | 0, _, daily => daily
  | n + 1, current_date, daily =>
    let day_start := 86400 * current_date
    let day_end := 86400 * current_date + 86399
    let block_start := max start_local day_start
    let block_end := min end_local day_end
    let daily' :=
      if block_start < block_end then
        let overtime_seconds :=
          calculate_overtime_for_day current_date
            (time_of_day block_start) (time_of_day block_end)
        if 0 < overtime_seconds then
          add_hours current_date ((overtime_seconds : ℚ) / 3600) daily
        else daily
      else daily
    slice_loop start_local end_local n (current_date + 1) daily'

/-- The UTC offset (in seconds) of Europe/Warsaw at the UTC instant `t`,
as `chrono_tz::Europe::Warsaw` resolves it for the modern era: UTC+2
(CEST) between the last Sunday of March at 01:00 UTC and the last Sunday
of October at 01:00 UTC of `t`'s year, UTC+1 (CET) otherwise (the EU
daylight-saving rule in force since 1996, covering all dates the program
processes). -/
def warsaw_offset (t : ℤ) : ℤ :=
  let y := (civilFromDays (t / 86400)).1
  let mar31 := daysFromCivil y 3 31
  let oct31 := daysFromCivil y 10 31
  let dst_start := (mar31 - ((weekday_num mar31 + 1) % 7)) * 86400 + 3600
  let dst_end := (oct31 - ((weekday_num oct31 + 1) % 7)) * 86400 + 3600
  if dst_start ≤ t ∧ t < dst_end then 7200 else 3600

/-- `and_utc().with_timezone(&Warsaw).naive_local()` from overtime.rs
lines 14-15: the localized naive datetime of a UTC instant. -/
def to_warsaw_local (t : ℤ) : ℤ := t + warsaw_offset t

example : warsaw_offset 0 = 3600 := by decide
example : warsaw_offset (20177 * 86400 + 3599) = 3600 := by decide
example : warsaw_offset (20177 * 86400 + 3600) = 7200 := by decide
example : warsaw_offset (20297 * 86400) = 7200 := by decide
example : warsaw_offset (daysFromCivil 2025 10 26 * 86400 + 3599) = 7200 := by decide
example : warsaw_offset (daysFromCivil 2025 10 26 * 86400 + 3600) = 3600 := by decide

/-- The `while current_date <= end_date` slicing of
`calculate_session_overtime` applied to the already-localized start/end
instants (everything in src/overtime.rs lines 17-47 after the Warsaw
conversion). -/
def slice_overtime_local (start_local end_local : ℤ) : List (ℤ × ℚ) :=
  slice_loop start_local end_local
    ((date_of end_local - date_of start_local) + 1).toNat
    (date_of start_local) []

/-- `calculate_session_overtime` from src/overtime.rs: localize the
session's UTC start/end instants to Europe/Warsaw, then slice per date. -/
def calculate_session_overtime (start_utc end_utc : ℤ) : List (ℤ × ℚ) :=
  slice_overtime_local (to_warsaw_local start_utc) (to_warsaw_local end_utc)

/-- Total hours over all dates of a per-date hour map. -/
def sum_hours (daily : List (ℤ × ℚ)) : ℚ := (daily.map (fun p => p.2)).sum

theorem slice_loop_zero (s e d : ℤ) (daily : List (ℤ × ℚ)) :
    slice_loop s e 0 d daily = daily := rfl

theorem slice_loop_succ (s e : ℤ) (n : ℕ) (d : ℤ) (daily : List (ℤ × ℚ)) :
    slice_loop s e (n + 1) d daily =
      slice_loop s e n (d + 1)
        (if max s (86400 * d) < min e (86400 * d + 86399) then
          if 0 < calculate_overtime_for_day d
              (time_of_day (max s (86400 * d)))
              (time_of_day (min e (86400 * d + 86399))) then
            add_hours d
              (((calculate_overtime_for_day d
                  (time_of_day (max s (86400 * d)))
                  (time_of_day (min e (86400 * d + 86399)))) : ℚ) / 3600) daily
          else daily
        else daily) := rfl

theorem add_hours_sum (k : ℤ) (h : ℚ) (l : List (ℤ × ℚ)) :
    sum_hours (add_hours k h l) = sum_hours l + h := by
  induction l with
  | nil => simp [add_hours, sum_hours]
  | cons p rest ih =>
    rcases p with ⟨k', v⟩
    by_cases hk : k' = k
    · simp only [add_hours, if_pos hk, sum_hours, List.map_cons, List.sum_cons]
      ring
    · simp only [add_hours, if_neg hk, sum_hours, List.map_cons, List.sum_cons] at *
      rw [ih]
      ring

theorem calculate_overtime_for_day_le (date ts te : ℤ) (h : ts ≤ te) :
    calculate_overtime_for_day date ts te ≤ te - ts := by
  cases hst : get_shift_type date <;>
    simp only [calculate_overtime_for_day, get_regular_work_window, hst] <;>
    omega

theorem slice_loop_sum_le (s e : ℤ) (n : ℕ) : ∀ (d : ℤ) (daily : List (ℤ × ℚ)),
    sum_hours (slice_loop s e n d daily) * 3600 ≤
      sum_hours daily * 3600 + ((max 0 (e - max s (86400 * d)) : ℤ) : ℚ) := by
  induction n with
  | zero =>
    intro d daily
    rw [slice_loop_zero]
    have h0 : (0:ℤ) ≤ max 0 (e - max s (86400 * d)) := le_max_left _ _
    have h0' : (0:ℚ) ≤ ((max 0 (e - max s (86400 * d)) : ℤ) : ℚ) := by exact_mod_cast h0
    linarith
  | succ n ih =>
    intro d daily
    rw [slice_loop_succ]
    by_cases hb : max s (86400 * d) < min e (86400 * d + 86399)
    · rw [if_pos hb]
      have ht1 : time_of_day (max s (86400 * d)) = max s (86400 * d) - 86400 * d := by
        unfold time_of_day
        omega
      have ht2 : time_of_day (min e (86400 * d + 86399)) =
          min e (86400 * d + 86399) - 86400 * d := by
        unfold time_of_day
        omega
      have hle := calculate_overtime_for_day_le d
        (time_of_day (max s (86400 * d))) (time_of_day (min e (86400 * d + 86399)))
        (by rw [ht1, ht2]; omega)
      rw [ht1, ht2] at hle
      by_cases hot : 0 < calculate_overtime_for_day d
          (time_of_day (max s (86400 * d))) (time_of_day (min e (86400 * d + 86399)))
      · rw [if_pos hot]
        have hih := ih (d + 1)
          (add_hours d
            (((calculate_overtime_for_day d
                (time_of_day (max s (86400 * d)))
                (time_of_day (min e (86400 * d + 86399)))) : ℚ) / 3600) daily)
        rw [add_hours_sum] at hih
        have key : calculate_overtime_for_day d
              (time_of_day (max s (86400 * d))) (time_of_day (min e (86400 * d + 86399))) +
              max 0 (e - max s (86400 * (d + 1))) ≤ max 0 (e - max s (86400 * d)) := by
          rw [ht1, ht2] at *
          omega
        have key' :
            ((calculate_overtime_for_day d
                (time_of_day (max s (86400 * d))) (time_of_day (min e (86400 * d + 86399))) : ℤ) : ℚ) +
              ((max 0 (e - max s (86400 * (d + 1))) : ℤ) : ℚ) ≤
              ((max 0 (e - max s (86400 * d)) : ℤ) : ℚ) := by
          exact_mod_cast key
        have hcancel :
            (((calculate_overtime_for_day d
                (time_of_day (max s (86400 * d)))
                (time_of_day (min e (86400 * d + 86399)))) : ℚ) / 3600) * 3600 =
            ((calculate_overtime_for_day d
                (time_of_day (max s (86400 * d)))
                (time_of_day (min e (86400 * d + 86399)))) : ℚ) :=
          div_mul_cancel₀ _ (by norm_num)
        nlinarith [hih, key', hcancel]
      · rw [if_neg hot]
        have hih := ih (d + 1) daily
        have hmono : max 0 (e - max s (86400 * (d + 1))) ≤ max 0 (e - max s (86400 * d)) := by
          omega
        have hmono' : ((max 0 (e - max s (86400 * (d + 1))) : ℤ) : ℚ) ≤
            ((max 0 (e - max s (86400 * d)) : ℤ) : ℚ) := by exact_mod_cast hmono
        linarith
    · rw [if_neg hb]
      have hih := ih (d + 1) daily
      have hmono : max 0 (e - max s (86400 * (d + 1))) ≤ max 0 (e - max s (86400 * d)) := by
        omega
      have hmono' : ((max 0 (e - max s (86400 * (d + 1))) : ℤ) : ℚ) ≤
          ((max 0 (e - max s (86400 * d)) : ℤ) : ℚ) := by exact_mod_cast hmono
      linarith

theorem slice_overtime_local_le_interval (s e : ℤ) (h : s ≤ e) :
    sum_hours (slice_overtime_local s e) ≤ ((e - s : ℤ) : ℚ) / 3600 := by
  unfold slice_overtime_local
  have hb := slice_loop_sum_le s e ((date_of e - date_of s) + 1).toNat (date_of s) []
  have h1 : 86400 * date_of s ≤ s := by
    unfold date_of
    omega
  have h2 : max 0 (e - max s (86400 * date_of s)) = e - s := by omega
  rw [h2] at hb
  simp only [sum_hours, List.map_nil, List.sum_nil, zero_mul, zero_add] at hb
  rw [le_div_iff (by norm_num : (0:ℚ) < 3600)]
  exact hb

/-- Claim C2 counterexample: a weekend session from 2025-03-30 00:30 UTC
to 01:30 UTC (epoch day 20177, a Sunday) has UTC duration 1 h, but the
Warsaw spring-forward transition at 01:00 UTC that night makes the
localized interval 01:30-03:30, so the slicer attributes 2 h of overtime
— the total sliced overtime exceeds the session's duration (end instant
minus start instant). -/
theorem session_overtime_exceeds_duration_counterexample :
    sum_hours (calculate_session_overtime (20177 * 86400 + 1800) (20177 * 86400 + 5400)) =
      2 ∧
    (((20177 * 86400 + 5400 : ℤ) - (20177 * 86400 + 1800 : ℤ)) : ℚ) / 3600 = 1 ∧
    ¬ (sum_hours (calculate_session_overtime (20177 * 86400 + 1800) (20177 * 86400 + 5400)) ≤
        (((20177 * 86400 + 5400 : ℤ) - (20177 * 86400 + 1800 : ℤ)) : ℚ) / 3600) := by
  have hlist : calculate_session_overtime (20177 * 86400 + 1800) (20177 * 86400 + 5400) =
      [(20177, ((7200 : ℤ) : ℚ) / 3600)] := by
    have h1 : to_warsaw_local (20177 * 86400 + 1800) = 20177 * 86400 + 5400 := by decide
    have h2 : to_warsaw_local (20177 * 86400 + 5400) = 20177 * 86400 + 12600 := by decide
    unfold calculate_session_overtime
    rw [h1, h2]
    unfold slice_overtime_local
    have hn : ((date_of (20177 * 86400 + 12600) - date_of (20177 * 86400 + 5400)) + 1).toNat =
        0 + 1 := by decide
    rw [hn, slice_loop_succ, slice_loop_zero]
    rw [show date_of (20177 * 86400 + 5400) = 20177 from by decide]
    rw [if_pos (show max (20177 * 86400 + 5400 : ℤ) (86400 * 20177) <
        min (20177 * 86400 + 12600 : ℤ) (86400 * 20177 + 86399) by decide)]
    rw [show calculate_overtime_for_day 20177
        (time_of_day (max (20177 * 86400 + 5400 : ℤ) (86400 * 20177)))
        (time_of_day (min (20177 * 86400 + 12600 : ℤ) (86400 * 20177 + 86399))) =
        (7200 : ℤ) from by decide]
    rw [if_pos (show (0:ℤ) < 7200 by decide)]
    rfl
  have hsum : sum_hours (calculate_session_overtime
      (20177 * 86400 + 1800) (20177 * 86400 + 5400)) = 2 := by
    rw [hlist]
    simp [sum_hours]
    norm_num
  refine ⟨hsum, by norm_num, ?_⟩
  rw [hsum, show (((20177 * 86400 + 5400 : ℤ) - (20177 * 86400 + 1800 : ℤ)) : ℚ) / 3600 = 1
    by norm_num]
  norm_num

/-- Claim C2 (amended): the total sliced overtime across all dates never
exceeds the length of the Warsaw-localized session interval (localized
end minus localized start, in hours), provided the localized interval is
ordered.  Away from DST transitions the localized length equals the
session's duration, so the original bound holds there; a session crossing
the spring-forward transition gains one hour of localized length and its
sliced overtime can exceed the UTC duration. -/
theorem session_overtime_le_local_interval (s e : ℤ)
    (h : to_warsaw_local s ≤ to_warsaw_local e) :
    sum_hours (calculate_session_overtime s e) ≤
      ((to_warsaw_local e - to_warsaw_local s : ℤ) : ℚ) / 3600 :=
  slice_overtime_local_le_interval (to_warsaw_local s) (to_warsaw_local e) h

/-- Witness for C2 (amended): a two-hour UTC session on 1970-01-01 (a
Regular Thursday in CET); its sliced overtime is at most the localized
interval length of 2 h. -/
theorem session_overtime_le_local_interval_witness :
    sum_hours (calculate_session_overtime 0 7200) ≤
      ((to_warsaw_local 7200 - to_warsaw_local 0 : ℤ) : ℚ) / 3600 :=
  session_overtime_le_local_interval 0 7200 (by decide)

/-! ### Claim C3: a session spanning midnight on two Regular days -/

/-- Claim C3: a session running from 23:00 local on day `d` (= 86400 d +
82800 s localized) to 01:00 local on day `d + 1` — the claim is stated in
local times, so it is slice_overtime_local, the slicing loop applied
after the Warsaw localization, that it constrains — with both days
classified Regular, yields overtime entries for both dates: day `d` gets
the 23:00-23:59:59 portion (3599 s = 3599/3600 h, all after the 15:00
window end) and day `d + 1` gets the 00:00-01:00 portion (3600 s = 1 h,
all before the 06:00 window start). -/
theorem midnight_spanning_session_overtime (d : ℤ)
    (h1 : get_shift_type d = ShiftType.Regular)
    (h2 : get_shift_type (d + 1) = ShiftType.Regular) :
    slice_overtime_local (86400 * d + 82800) (86400 * (d + 1) + 3600) =
      [(d, 3599 / 3600), (d + 1, 1)] := by
  unfold slice_overtime_local
  have hd1 : date_of (86400 * d + 82800) = d := by
    unfold date_of
    omega
  have hd2 : date_of (86400 * (d + 1) + 3600) = d + 1 := by
    unfold date_of
    omega
  rw [hd1, hd2]
  have hn : (d + 1 - d + 1).toNat = 2 := by omega
  rw [hn]
  have e1 : max (86400 * d + 82800) (86400 * d) = 86400 * d + 82800 := by omega
  have e2 : min (86400 * (d + 1) + 3600) (86400 * d + 86399) = 86400 * d + 86399 := by
    omega
  have e3 : time_of_day (86400 * d + 82800) = 82800 := by
    unfold time_of_day
    omega
  have e4 : time_of_day (86400 * d + 86399) = 86399 := by
    unfold time_of_day
    omega
  have o1 : calculate_overtime_for_day d 82800 86399 = 3599 := by
    simp only [calculate_overtime_for_day, get_regular_work_window, h1]
    norm_num
  have c1 : max (86400 * d + 82800) (86400 * d) <
      min (86400 * (d + 1) + 3600) (86400 * d + 86399) := by omega
  rw [show (2:ℕ) = 1 + 1 from rfl, slice_loop_succ, if_pos c1, e1, e2, e3, e4, o1]
  rw [if_pos (show (0:ℤ) < 3599 by norm_num)]
  have e5 : max (86400 * d + 82800) (86400 * (d + 1)) = 86400 * (d + 1) := by omega
  have e6 : min (86400 * (d + 1) + 3600) (86400 * (d + 1) + 86399) =
      86400 * (d + 1) + 3600 := by omega
  have e7 : time_of_day (86400 * (d + 1)) = 0 := by
    unfold time_of_day
    omega
  have e8 : time_of_day (86400 * (d + 1) + 3600) = 3600 := by
    unfold time_of_day
    omega
  have o2 : calculate_overtime_for_day (d + 1) 0 3600 = 3600 := by
    simp only [calculate_overtime_for_day, get_regular_work_window, h2]
    norm_num
  have c2 : max (86400 * d + 82800) (86400 * (d + 1)) <
      min (86400 * (d + 1) + 3600) (86400 * (d + 1) + 86399) := by omega
  rw [slice_loop_succ, if_pos c2, e5, e6, e7, e8, o2]
  rw [if_pos (show (0:ℤ) < 3600 by norm_num)]
  rw [slice_loop_zero]
  have hne : ¬ (d = d + 1) := by omega
  simp only [add_hours, if_neg hne]
  norm_num

/-- Witness for C3 at the concrete Regular days 2025-08-04 (Monday, epoch
day 20304) and 2025-08-05. -/
theorem midnight_spanning_session_overtime_witness :
    get_shift_type 20304 = ShiftType.Regular ∧
    get_shift_type (20304 + 1) = ShiftType.Regular ∧
    slice_overtime_local (86400 * 20304 + 82800) (86400 * (20304 + 1) + 3600) =
      [(20304, 3599 / 3600), (20304 + 1, 1)] :=
  ⟨by decide, by decide,
    midnight_spanning_session_overtime 20304 (by decide) (by decide)⟩

/-! ### src/jsonl.rs — per-project attribution in `load_overtime_from_files` -/

/-- `ProjectHours` from src/jsonl.rs. -/
structure ProjectHours where
  weekday_hours : ℚ
  weekend_hours : ℚ
deriving DecidableEq, Repr

/-- Adding hours to the weekday or weekend bucket of one project entry,
according to `is_weekend(date)` (the `if is_weekend(date) { .. } else
{ .. }` in the attribution loop). -/
def add_to_bucket (date : ℤ) (h : ℚ) (ph : ProjectHours) : ProjectHours :=
  if is_weekend date then { ph with weekend_hours := ph.weekend_hours + h }
  else { ph with weekday_hours := ph.weekday_hours + h }

/-- `day_projects.entry(name).or_default()` followed by the bucket `+=`,
on the association-list model. -/
def bump_project (name : String) (date : ℤ) (h : ℚ) :
    List (String × ProjectHours) → List (String × ProjectHours)
  | [] => [(name, add_to_bucket date h ⟨0, 0⟩)]
  | (n, ph) :: rest =>
    if n = name then (n, add_to_bucket date h ph) :: rest
    else (n, ph) :: bump_project name date h rest

/-- The `real_projects` filter: all sources except the "transcripts"
sentinel. -/
def real_projects (counts : List (String × ℕ)) : List (String × ℕ) :=
  counts.filter (fun p => decide (p.1 ≠ "transcripts"))

/-- `total_records`: the sum of event counts over the real projects. -/
def total_real_events (counts : List (String × ℕ)) : ℕ :=
  ((real_projects counts).map (fun p => p.2)).sum

/-- The per-date attribution step of `load_overtime_from_files`
(src/jsonl.rs lines 321-343) for one retained date of one session:
with no real events everything goes to the synthetic "unknown" project,
otherwise each real project receives `hours * (count / total_records)`. -/
def attribute_date (day_projects : List (String × ProjectHours)) (date : ℤ)
    (hours : ℚ) (counts : List (String × ℕ)) : List (String × ProjectHours) :=
  let real_projs := real_projects counts
  let total_records := total_real_events counts
  if total_records = 0 then
    bump_project "unknown" date hours day_projects
  else
    real_projs.foldl
      (fun dp p => bump_project p.1 date (hours * ((p.2 : ℚ) / (total_records : ℚ))) dp)
      day_projects

/-- Total weekday-rate hours over a day's project map. -/
def weekday_sum (dp : List (String × ProjectHours)) : ℚ :=
  (dp.map (fun p => p.2.weekday_hours)).sum

/-- Total weekend-rate hours over a day's project map. -/
def weekend_sum (dp : List (String × ProjectHours)) : ℚ :=
  (dp.map (fun p => p.2.weekend_hours)).sum

theorem bump_project_weekday_sum (name : String) (date : ℤ) (h : ℚ)
    (dp : List (String × ProjectHours)) :
    weekday_sum (bump_project name date h dp) =
      weekday_sum dp + (if is_weekend date then 0 else h) := by
  induction dp with
  | nil =>
    by_cases hw : is_weekend date <;>
      simp [bump_project, add_to_bucket, weekday_sum, hw]
  | cons p rest ih =>
    rcases p with ⟨n, ph⟩
    by_cases hn : n = name
    · by_cases hw : is_weekend date <;>
        simp [bump_project, hn, add_to_bucket, weekday_sum, hw] <;>
        ring
    · simp only [bump_project, if_neg hn, weekday_sum, List.map_cons, List.sum_cons]
      simp only [weekday_sum] at ih
      rw [ih]
      ring

theorem bump_project_weekend_sum (name : String) (date : ℤ) (h : ℚ)
    (dp : List (String × ProjectHours)) :
    weekend_sum (bump_project name date h dp) =
      weekend_sum dp + (if is_weekend date then h else 0) := by
  induction dp with
  | nil =>
    by_cases hw : is_weekend date <;>
      simp [bump_project, add_to_bucket, weekend_sum, hw]
  | cons p rest ih =>
    rcases p with ⟨n, ph⟩
    by_cases hn : n = name
    · by_cases hw : is_weekend date <;>
        simp [bump_project, hn, add_to_bucket, weekend_sum, hw] <;>
        ring
    · simp only [bump_project, if_neg hn, weekend_sum, List.map_cons, List.sum_cons]
      simp only [weekend_sum] at ih
      rw [ih]
      ring

theorem foldl_bump_weekday_sum (date : ℤ) (f : String × ℕ → ℚ)
    (rp : List (String × ℕ)) :
    ∀ dp, weekday_sum (rp.foldl (fun dp p => bump_project p.1 date (f p) dp) dp) =
      weekday_sum dp + (if is_weekend date then 0 else (rp.map f).sum) := by
  induction rp with
  | nil =>
    intro dp
    by_cases hw : is_weekend date <;> simp [hw]
  | cons p rest ih =>
    intro dp
    rw [List.foldl_cons, ih, bump_project_weekday_sum]
    by_cases hw : is_weekend date <;> simp [hw] <;> ring

theorem foldl_bump_weekend_sum (date : ℤ) (f : String × ℕ → ℚ)
    (rp : List (String × ℕ)) :
    ∀ dp, weekend_sum (rp.foldl (fun dp p => bump_project p.1 date (f p) dp) dp) =
      weekend_sum dp + (if is_weekend date then (rp.map f).sum else 0) := by
  induction rp with
  | nil =>
    intro dp
    by_cases hw : is_weekend date <;> simp [hw]
  | cons p rest ih =>
    intro dp
    rw [List.foldl_cons, ih, bump_project_weekend_sum]
    by_cases hw : is_weekend date <;> simp [hw] <;> ring

theorem sum_map_frac (hours T : ℚ) (l : List (String × ℕ)) :
    (l.map (fun p => hours * ((p.2 : ℚ) / T))).sum =
      hours * ((((l.map (fun p => p.2)).sum : ℕ) : ℚ) / T) := by
  induction l with
  | nil => simp
  | cons p rest ih =>
    simp only [List.map_cons, List.sum_cons, ih]
    push_cast
    ring

/-! ### Claim C10: attribution conserves each date's hours -/

/-- Claim C10: for a session with at least one real (non-"transcripts")
event and a retained date with positive hours, the per-project shares
`hours * (count / totalRealEvents)` summed over the real projects equal
exactly the hours added to the day total, and the whole amount lands in
the weekend bucket when the date is a weekend, in the weekday bucket
otherwise. -/
theorem attribution_conserves_hours (dp : List (String × ProjectHours)) (date : ℤ)
    (hours : ℚ) (counts : List (String × ℕ))
    (htot : total_real_events counts ≠ 0) (hpos : 0 < hours) :
    weekday_sum (attribute_date dp date hours counts) +
      weekend_sum (attribute_date dp date hours counts) =
      (weekday_sum dp + weekend_sum dp) + hours ∧
    (is_weekend date = true →
      weekday_sum (attribute_date dp date hours counts) = weekday_sum dp ∧
      weekend_sum (attribute_date dp date hours counts) = weekend_sum dp + hours) ∧
    (is_weekend date = false →
      weekend_sum (attribute_date dp date hours counts) = weekend_sum dp ∧
      weekday_sum (attribute_date dp date hours counts) = weekday_sum dp + hours) := by
  have hT : ((total_real_events counts : ℕ) : ℚ) ≠ 0 := Nat.cast_ne_zero.mpr htot
  have hsum :
      ((real_projects counts).map
          (fun p => hours * ((p.2 : ℚ) / (total_real_events counts : ℚ)))).sum = hours := by
    rw [sum_map_frac]
    rw [show (((real_projects counts).map (fun p => p.2)).sum : ℕ) = total_real_events counts
      from rfl]
    rw [div_self hT, mul_one]
  have hwd := foldl_bump_weekday_sum date
    (fun p => hours * ((p.2 : ℚ) / (total_real_events counts : ℚ)))
    (real_projects counts) dp
  have hwe := foldl_bump_weekend_sum date
    (fun p => hours * ((p.2 : ℚ) / (total_real_events counts : ℚ)))
    (real_projects counts) dp
  rw [hsum] at hwd hwe
  have hattr : attribute_date dp date hours counts =
      (real_projects counts).foldl
        (fun dp p => bump_project p.1 date (hours * ((p.2 : ℚ) / (total_real_events counts : ℚ))) dp)
        dp := by
    unfold attribute_date
    rw [if_neg htot]
  rw [hattr]
  refine ⟨?_, fun hw => ?_, fun hw => ?_⟩
  · rw [hwd, hwe]
    by_cases hw : is_weekend date <;> simp [hw] <;> ring
  · rw [hwd, hwe]
    simp [hw]
  · rw [hwd, hwe]
    simp [hw]

/-- Witness for C10: two real projects with counts 1 and 3 on the Regular
weekday 1970-01-01 share 2 h as 0.5 h + 1.5 h, conserving the day total. -/
theorem attribution_conserves_hours_witness :
    total_real_events [("a", 1), ("b", 3)] ≠ 0 ∧ (0 : ℚ) < 2 ∧
    weekday_sum (attribute_date [] 0 2 [("a", 1), ("b", 3)]) +
      weekend_sum (attribute_date [] 0 2 [("a", 1), ("b", 3)]) =
      (weekday_sum [] + weekend_sum []) + 2 :=
  ⟨by decide, by norm_num,
    (attribution_conserves_hours [] 0 2 [("a", 1), ("b", 3)] (by decide) (by norm_num)).1⟩

/-! ### src/archive.rs — the persistent ledger and its merge

The ledger's `days` map is keyed by the date value (the `"%Y-%m-%d"`
string key of the source round-trips through format/parse for every
valid date), and the `months` map by the `(year, month)` pair (the
`"YYYY-MM"` string key).  Persistence (load/save, atomic rename) is I/O
and is outside the merge function modelled here. -/

/-- `ProjectHoursEntry` from src/archive.rs. -/
structure ProjectHoursEntry where
  weekday_hours : ℚ
  weekend_hours : ℚ
deriving DecidableEq, Repr

/-- `DayEntry` from src/archive.rs (`processed` is the finalized flag). -/
structure DayEntry where
  hours : ℚ
  formatted : String
  shift : String
  processed : Bool
  projects : Option (List (String × ProjectHoursEntry))
deriving DecidableEq, Repr

/-- `MonthEntry` from src/archive.rs. -/
structure MonthEntry where
  total_hours : ℚ
  formatted : String
deriving DecidableEq, Repr

/-- `DailySummaryFile` from src/archive.rs. -/
structure DailySummaryFile where
  version : ℕ
  days : List (ℤ × DayEntry)
  months : List ((ℤ × ℤ) × MonthEntry)
deriving DecidableEq, Repr

/-- `shift_name` from src/archive.rs. -/
def shift_name : ShiftType → String
  | ShiftType.Regular => "regular"
  | ShiftType.Afternoon => "afternoon"
  | ShiftType.Weekend => "weekend"
  | ShiftType.SaturdayAfternoon => "saturday_afternoon"

/-- `HashMap::get` on the association-list model. -/
def lookupA {α β : Type} [DecidableEq α] : List (α × β) → α → Option β
  | [], _ => none
  | (k, v) :: rest, key => if k = key then some v else lookupA rest key

/-- `HashMap::insert` on the association-list model: replaces in place or
appends. -/
def insertA {α β : Type} [DecidableEq α] (key : α) (val : β) :
    List (α × β) → List (α × β)
  | [] => [(key, val)]
  | (k, v) :: rest =>
    if k = key then (key, val) :: rest else (k, v) :: insertA key val rest

/-- `*map.entry(key).or_insert(0.0) += h` on the association-list model. -/
def addA {α : Type} [DecidableEq α] (key : α) (h : ℚ) :
    List (α × ℚ) → List (α × ℚ)
  | [] => [(key, h)]
  | (k, v) :: rest =>
    if k = key then (k, v + h) :: rest else (k, v) :: addA key h rest

/-- The merge guard of `archive_overtime`:
`None => true, Some(entry) => !entry.processed || entry.hours == 0.0`. -/
def should_update (existing : Option DayEntry) : Bool :=
  match existing with
  | none => true
  | some entry => !entry.processed || decide (entry.hours = 0)

/-- The `DayEntry` written by `archive_overtime` for a date. -/
def mk_day_entry (date : ℤ) (hours : ℚ)
    (daily_projects : List (ℤ × List (String × ProjectHours))) : DayEntry :=
  { hours := hours
    formatted := format_hm hours
    shift := shift_name (get_shift_type date)
    processed := true
    projects := (lookupA daily_projects date).map
      (fun projs => projs.map (fun p => (p.1, ⟨p.2.weekday_hours, p.2.weekend_hours⟩))) }

/-- One iteration of the day-updating loop of `archive_overtime`
(src/archive.rs lines 117-164): skip today, then update a date's entry
only when `should_update` allows it. -/
def archive_step (today : ℤ)
    (daily_projects : List (ℤ × List (String × ProjectHours)))
    (days : List (ℤ × DayEntry)) (p : ℤ × ℚ) : List (ℤ × DayEntry) :=
  if p.1 = today then days
  else if should_update (lookupA days p.1) then
    insertA p.1 (mk_day_entry p.1 p.2 daily_projects) days
  else days

/-- The day-updating loop of `archive_overtime`. -/
def archive_days (today : ℤ)
    (daily_projects : List (ℤ × List (String × ProjectHours)))
    (daily_hours : List (ℤ × ℚ))
    (days0 : List (ℤ × DayEntry)) : List (ℤ × DayEntry) :=
  daily_hours.foldl (archive_step today daily_projects) days0

/-- One iteration of the month-total recomputation: add a day entry's
hours to its month key. -/
def month_step (acc : List ((ℤ × ℤ) × ℚ)) (p : ℤ × DayEntry) :
    List ((ℤ × ℤ) × ℚ) :=
  addA (month_of p.1) p.2.hours acc

/-- The unconditional month-total recomputation of `archive_overtime`
(src/archive.rs lines 166-172): sum the hours of every day entry into its
month key. -/
def recompute_month_totals (days : List (ℤ × DayEntry)) : List ((ℤ × ℤ) × ℚ) :=
  days.foldl month_step []

/-- One iteration of the month-insertion loop: write one recomputed total
(with its formatted rendering) over the months map. -/
def insert_month_step (ms : List ((ℤ × ℤ) × MonthEntry)) (p : (ℤ × ℤ) × ℚ) :
    List ((ℤ × ℤ) × MonthEntry) :=
  insertA p.1 ⟨p.2, format_hm p.2⟩ ms

/-- The month-insertion loop of `archive_overtime` (src/archive.rs lines
174-182): write each recomputed total over the months map.  Note: months
absent from the recomputed totals are left as they were. -/
def insert_months (totals : List ((ℤ × ℤ) × ℚ))
    (months : List ((ℤ × ℤ) × MonthEntry)) : List ((ℤ × ℤ) × MonthEntry) :=
  totals.foldl insert_month_step months

/-- `archive_overtime` from src/archive.rs as a pure map on the in-memory
ledger (`today` is the current processing date `Local::now().date_naive()`;
saving to disk is I/O outside the model). -/
def archive_overtime (today : ℤ) (daily_hours : List (ℤ × ℚ))
    (daily_projects : List (ℤ × List (String × ProjectHours)))
    (summary : DailySummaryFile) : DailySummaryFile :=
  { version := 2
    days := archive_days today daily_projects daily_hours summary.days
    months := insert_months
      (recompute_month_totals (archive_days today daily_projects daily_hours summary.days))
      summary.months }

/-- The sum of the hours of all day entries whose date falls in month `m`. -/
def month_sum (m : ℤ × ℤ) (days : List (ℤ × DayEntry)) : ℚ :=
  ((days.filter (fun p => decide (month_of p.1 = m))).map (fun p => p.2.hours)).sum

/-! ### Association-list lemmas -/

theorem lookupA_insertA_self {α β : Type} [DecidableEq α] (k : α) (v : β)
    (l : List (α × β)) : lookupA (insertA k v l) k = some v := by
  induction l with
  | nil => simp [insertA, lookupA]
  | cons p rest ih =>
    rcases p with ⟨k', v'⟩
    by_cases hk : k' = k
    · simp [insertA, if_pos hk, lookupA]
    · simp only [insertA, if_neg hk, lookupA]
      exact ih

theorem lookupA_insertA_other {α β : Type} [DecidableEq α] (k key : α) (v : β)
    (l : List (α × β)) (h : key ≠ k) :
    lookupA (insertA k v l) key = lookupA l key := by
  induction l with
  | nil =>
    simp only [insertA, lookupA]
    rw [if_neg (fun hh => h hh.symm)]
  | cons p rest ih =>
    rcases p with ⟨k', v'⟩
    by_cases hk : k' = k
    · subst hk
      simp only [insertA, if_pos rfl, lookupA]
      rw [if_neg (fun hh => h hh.symm), if_neg (fun hh => h hh.symm)]
    · simp only [insertA, if_neg hk, lookupA]
      by_cases hq : k' = key
      · rw [if_pos hq, if_pos hq]
      · rw [if_neg hq, if_neg hq]
        exact ih

theorem insertA_self_of_lookup {α β : Type} [DecidableEq α] (k : α) (v : β)
    (l : List (α × β)) (h : lookupA l k = some v) : insertA k v l = l := by
  induction l with
  | nil => simp [lookupA] at h
  | cons p rest ih =>
    rcases p with ⟨k', v'⟩
    by_cases hk : k' = k
    · subst hk
      simp only [lookupA, if_true, eq_self_iff_true, Option.some.injEq] at h
      subst h
      simp [insertA]
    · simp only [lookupA, if_neg hk] at h
      simp only [insertA, if_neg hk]
      rw [ih h]

theorem lookupA_mem {α β : Type} [DecidableEq α] (l : List (α × β)) (k : α) (v : β)
    (h : lookupA l k = some v) : (k, v) ∈ l := by
  induction l with
  | nil => simp [lookupA] at h
  | cons p rest ih =>
    rcases p with ⟨k', v'⟩
    by_cases hk : k' = k
    · subst hk
      simp only [lookupA, if_true, eq_self_iff_true, Option.some.injEq] at h
      subst h
      exact List.mem_cons_self _ _
    · simp only [lookupA, if_neg hk] at h
      exact List.mem_cons_of_mem _ (ih h)

theorem lookupA_addA_self_some {α : Type} [DecidableEq α] (k : α) (h v : ℚ)
    (l : List (α × ℚ)) (hl : lookupA l k = some v) :
    lookupA (addA k h l) k = some (v + h) := by
  induction l with
  | nil => simp [lookupA] at hl
  | cons p rest ih =>
    rcases p with ⟨k', v'⟩
    by_cases hk : k' = k
    · subst hk
      simp only [lookupA, if_true, eq_self_iff_true, Option.some.injEq] at hl
      subst hl
      simp [addA, lookupA]
    · simp only [lookupA, if_neg hk] at hl
      simp only [addA, if_neg hk, lookupA]
      exact ih hl

theorem lookupA_addA_self_none {α : Type} [DecidableEq α] (k : α) (h : ℚ)
    (l : List (α × ℚ)) (hl : lookupA l k = none) :
    lookupA (addA k h l) k = some h := by
  induction l with
  | nil => simp [addA, lookupA]
  | cons p rest ih =>
    rcases p with ⟨k', v'⟩
    by_cases hk : k' = k
    · subst hk
      simp [lookupA] at hl
    · simp only [lookupA, if_neg hk] at hl
      simp only [addA, if_neg hk, lookupA]
      exact ih hl

theorem lookupA_addA_other {α : Type} [DecidableEq α] (k key : α) (h : ℚ)
    (l : List (α × ℚ)) (hne : key ≠ k) :
    lookupA (addA k h l) key = lookupA l key := by
  induction l with
  | nil =>
    simp only [addA, lookupA]
    rw [if_neg (fun hh => hne hh.symm)]
  | cons p rest ih =>
    rcases p with ⟨k', v'⟩
    by_cases hk : k' = k
    · subst hk
      simp only [addA, if_pos rfl, lookupA]
      rw [if_neg (fun hh => hne hh.symm), if_neg (fun hh => hne hh.symm)]
    · simp only [addA, if_neg hk, lookupA]
      by_cases hq : k' = key
      · rw [if_pos hq, if_pos hq]
      · rw [if_neg hq, if_neg hq]
        exact ih

theorem foldl_id {α β : Type} (f : β → α → β) (l : List α) (D : β)
    (h : ∀ p ∈ l, f D p = D) : l.foldl f D = D := by
  induction l with
  | nil => rfl
  | cons p rest ih =>
    rw [List.foldl_cons, h p (List.mem_cons_self _ _)]
    exact ih (fun q hq => h q (List.mem_cons_of_mem _ hq))

/-! ### Claim C1: the day-merge policy of `archive_overtime` -/

theorem archive_step_lookup_other (today : ℤ)
    (dp : List (ℤ × List (String × ProjectHours))) (days : List (ℤ × DayEntry))
    (p : ℤ × ℚ) (d : ℤ) (hne : p.1 ≠ d) :
    lookupA (archive_step today dp days p) d = lookupA days d := by
  unfold archive_step
  by_cases ht : p.1 = today
  · rw [if_pos ht]
  · rw [if_neg ht]
    by_cases hu : should_update (lookupA days p.1)
    · rw [if_pos hu]
      exact lookupA_insertA_other _ _ _ _ (fun he => hne he.symm)
    · rw [if_neg hu]

theorem archive_days_lookup_not_mem (today : ℤ)
    (dp : List (ℤ × List (String × ProjectHours))) (dh : List (ℤ × ℚ)) (d : ℤ)
    (hd : d ∉ dh.map (fun p => p.1)) :
    ∀ days0, lookupA (archive_days today dp dh days0) d = lookupA days0 d := by
  induction dh with
  | nil => intro days0; rfl
  | cons p rest ih =>
    intro days0
    have hd' : d ∉ rest.map (fun p => p.1) := by
      intro hmem
      exact hd (List.mem_cons_of_mem _ hmem)
    have hne : p.1 ≠ d := by
      intro he
      apply hd
      rw [List.map_cons]
      rw [he]
      exact List.mem_cons_self _ _
    show lookupA (archive_days today dp rest (archive_step today dp days0 p)) d = _
    rw [ih hd' (archive_step today dp days0 p)]
    exact archive_step_lookup_other today dp days0 p d hne

theorem archive_days_lookup_today (today : ℤ)
    (dp : List (ℤ × List (String × ProjectHours))) (dh : List (ℤ × ℚ)) :
    ∀ days0, lookupA (archive_days today dp dh days0) today = lookupA days0 today := by
  induction dh with
  | nil => intro days0; rfl
  | cons p rest ih =>
    intro days0
    show lookupA (archive_days today dp rest (archive_step today dp days0 p)) today = _
    rw [ih (archive_step today dp days0 p)]
    by_cases ht : p.1 = today
    · unfold archive_step
      rw [if_pos ht]
    · exact archive_step_lookup_other today dp days0 p today ht

theorem archive_days_lookup_mem (today : ℤ)
    (dp : List (ℤ × List (String × ProjectHours))) (dh : List (ℤ × ℚ))
    (hnd : (dh.map (fun p => p.1)).Nodup) (d : ℤ) (h : ℚ)
    (hmem : (d, h) ∈ dh) (hne : d ≠ today) :
    ∀ days0, lookupA (archive_days today dp dh days0) d =
      if should_update (lookupA days0 d) then some (mk_day_entry d h dp)
      else lookupA days0 d := by
  induction dh with
  | nil => exact absurd hmem (List.not_mem_nil _)
  | cons p rest ih =>
    intro days0
    rcases List.mem_cons.mp hmem with hp | hp
    · subst hp
      have hdnotin : d ∉ rest.map (fun q => q.1) := (List.nodup_cons.mp hnd).1
      show lookupA (archive_days today dp rest (archive_step today dp days0 (d, h))) d = _
      rw [archive_days_lookup_not_mem today dp rest d hdnotin]
      unfold archive_step
      rw [if_neg hne]
      by_cases hu : should_update (lookupA days0 d)
      · rw [if_pos hu, if_pos hu]
        exact lookupA_insertA_self _ _ _
      · rw [if_neg hu, if_neg hu]
    · have hd_in : d ∈ rest.map (fun q => q.1) := by
        have := List.mem_map_of_mem (fun q : ℤ × ℚ => q.1) hp
        exact this
      have hkey : p.1 ≠ d := by
        have h1 : p.1 ∉ rest.map (fun q => q.1) := (List.nodup_cons.mp hnd).1
        intro he
        rw [he] at h1
        exact h1 hd_in
      have hrest : (rest.map (fun q => q.1)).Nodup := (List.nodup_cons.mp hnd).2
      show lookupA (archive_days today dp rest (archive_step today dp days0 p)) d = _
      rw [ih hrest hp (archive_step today dp days0 p)]
      rw [archive_step_lookup_other today dp days0 p d hkey]

/-- Claim C1: in every `archive_overtime` merge with distinct dates in the
fresh day totals, a date other than today is updated (to the freshly
built entry) exactly when no ledger entry exists, or the existing entry
is not finalized (`processed` false), or its hours equal exactly 0;
otherwise the finalized entry is left untouched — and the entry for the
current processing date is never written. -/
theorem archive_overtime_merge_policy (today : ℤ) (daily_hours : List (ℤ × ℚ))
    (daily_projects : List (ℤ × List (String × ProjectHours)))
    (summary : DailySummaryFile)
    (hnd : (daily_hours.map (fun p => p.1)).Nodup) (d : ℤ) (h : ℚ)
    (hmem : (d, h) ∈ daily_hours) (hne : d ≠ today) :
    lookupA (archive_overtime today daily_hours daily_projects summary).days d =
      (if should_update (lookupA summary.days d)
       then some (mk_day_entry d h daily_projects)
       else lookupA summary.days d) ∧
    lookupA (archive_overtime today daily_hours daily_projects summary).days today =
      lookupA summary.days today :=
  ⟨archive_days_lookup_mem today daily_projects daily_hours hnd d h hmem hne
      summary.days,
    archive_days_lookup_today today daily_projects daily_hours summary.days⟩

/-- Witness for C1: merging hours for 2025-08-04 into an empty ledger
with today = 1970-01-01 writes the fresh entry for that date and leaves
the (absent) entry for today absent. -/
theorem archive_overtime_merge_policy_witness :
    lookupA (archive_overtime 0 [(20304, 2)] [] ⟨2, [], []⟩).days 20304 =
      (if should_update (lookupA (⟨2, [], []⟩ : DailySummaryFile).days 20304)
       then some (mk_day_entry 20304 2 [])
       else lookupA (⟨2, [], []⟩ : DailySummaryFile).days 20304) ∧
    lookupA (archive_overtime 0 [(20304, 2)] [] ⟨2, [], []⟩).days 0 =
      lookupA (⟨2, [], []⟩ : DailySummaryFile).days 0 :=
  archive_overtime_merge_policy 0 [(20304, 2)] [] ⟨2, [], []⟩ (by decide) 20304 2
    (by simp) (by decide)

/-! ### Claim C7: month totals versus day entries -/

theorem month_sum_nil (m : ℤ × ℤ) : month_sum m [] = 0 := rfl

theorem month_sum_cons_pos (m : ℤ × ℤ) (p : ℤ × DayEntry) (rest : List (ℤ × DayEntry))
    (hm : month_of p.1 = m) :
    month_sum m (p :: rest) = p.2.hours + month_sum m rest := by
  simp [month_sum, List.filter_cons, hm]

theorem month_sum_cons_neg (m : ℤ × ℤ) (p : ℤ × DayEntry) (rest : List (ℤ × DayEntry))
    (hm : ¬ month_of p.1 = m) :
    month_sum m (p :: rest) = month_sum m rest := by
  simp [month_sum, List.filter_cons, hm]

theorem month_fold_lookup_some (m : ℤ × ℤ) (days : List (ℤ × DayEntry)) :
    ∀ (acc : List ((ℤ × ℤ) × ℚ)) (v : ℚ), lookupA acc m = some v →
      lookupA (days.foldl month_step acc) m = some (v + month_sum m days) := by
  induction days with
  | nil =>
    intro acc v hv
    show lookupA acc m = _
    rw [hv, month_sum_nil]
    norm_num
  | cons p rest ih =>
    intro acc v hv
    show lookupA (rest.foldl month_step (month_step acc p)) m = _
    by_cases hm : month_of p.1 = m
    · have hacc : lookupA (month_step acc p) m = some (v + p.2.hours) := by
        unfold month_step
        rw [hm]
        exact lookupA_addA_self_some m _ v acc hv
      rw [ih (month_step acc p) (v + p.2.hours) hacc, month_sum_cons_pos m p rest hm]
      congr 1
      ring
    · have hacc : lookupA (month_step acc p) m = some v := by
        unfold month_step
        rw [lookupA_addA_other _ _ _ _ (fun he => hm he.symm)]
        exact hv
      rw [ih (month_step acc p) v hacc, month_sum_cons_neg m p rest hm]

theorem month_fold_lookup_none (m : ℤ × ℤ) (days : List (ℤ × DayEntry)) :
    ∀ (acc : List ((ℤ × ℤ) × ℚ)), lookupA acc m = none →
      lookupA (days.foldl month_step acc) m =
        (if m ∈ days.map (fun p => month_of p.1) then some (month_sum m days)
         else none) := by
  induction days with
  | nil =>
    intro acc hv
    show lookupA acc m = _
    simpa using hv
  | cons p rest ih =>
    intro acc hv
    show lookupA (rest.foldl month_step (month_step acc p)) m = _
    by_cases hm : month_of p.1 = m
    · have hacc : lookupA (month_step acc p) m = some p.2.hours := by
        unfold month_step
        rw [hm]
        exact lookupA_addA_self_none m _ acc hv
      rw [month_fold_lookup_some m rest (month_step acc p) p.2.hours hacc]
      have hmem : m ∈ (p :: rest).map (fun q => month_of q.1) := by
        rw [List.map_cons]
        exact List.mem_cons.mpr (Or.inl hm.symm)
      rw [if_pos hmem, month_sum_cons_pos m p rest hm]
    · have hacc : lookupA (month_step acc p) m = none := by
        unfold month_step
        rw [lookupA_addA_other _ _ _ _ (fun he => hm he.symm)]
        exact hv
      rw [ih (month_step acc p) hacc, month_sum_cons_neg m p rest hm]
      by_cases hmem : m ∈ rest.map (fun q => month_of q.1)
      · rw [if_pos hmem, if_pos (by
          rw [List.map_cons]
          exact List.mem_cons.mpr (Or.inr hmem))]
      · rw [if_neg hmem, if_neg (by
          rw [List.map_cons]
          intro hc
          rcases List.mem_cons.mp hc with he | hc2
          · exact hm he.symm
          · exact hmem hc2)]

theorem addA_keys_mem {α : Type} [DecidableEq α] (k : α) (h : ℚ)
    (l : List (α × ℚ)) (x : α) :
    x ∈ (addA k h l).map (fun p => p.1) ↔ x ∈ l.map (fun p => p.1) ∨ x = k := by
  induction l with
  | nil => simp [addA]
  | cons p rest ih =>
    rcases p with ⟨k', v⟩
    by_cases hk : k' = k
    · subst hk
      have he : addA k' h ((k', v) :: rest) = (k', v + h) :: rest := by
        simp [addA]
      rw [he]
      simp only [List.map_cons, List.mem_cons]
      tauto
    · simp only [addA, if_neg hk, List.map_cons, List.mem_cons, ih]
      tauto

theorem addA_keys_nodup {α : Type} [DecidableEq α] (k : α) (h : ℚ)
    (l : List (α × ℚ)) (hnd : (l.map (fun p => p.1)).Nodup) :
    ((addA k h l).map (fun p => p.1)).Nodup := by
  induction l with
  | nil => simp [addA]
  | cons p rest ih =>
    rcases p with ⟨k', v⟩
    have h1 : k' ∉ rest.map (fun p => p.1) := (List.nodup_cons.mp hnd).1
    have h2 : (rest.map (fun p => p.1)).Nodup := (List.nodup_cons.mp hnd).2
    by_cases hk : k' = k
    · subst hk
      have he : addA k' h ((k', v) :: rest) = (k', v + h) :: rest := by
        simp [addA]
      rw [he, List.map_cons, List.nodup_cons]
      exact ⟨h1, h2⟩
    · simp only [addA, if_neg hk, List.map_cons]
      rw [List.nodup_cons]
      constructor
      · intro hc
        rcases (addA_keys_mem k h rest k').mp hc with hc1 | hc2
        · exact h1 hc1
        · exact hk hc2
      · exact ih h2

theorem month_fold_keys_nodup (days : List (ℤ × DayEntry)) :
    ∀ acc : List ((ℤ × ℤ) × ℚ), (acc.map (fun p => p.1)).Nodup →
      ((days.foldl month_step acc).map (fun p => p.1)).Nodup := by
  induction days with
  | nil => intro acc h; exact h
  | cons p rest ih =>
    intro acc h
    show ((rest.foldl month_step (month_step acc p)).map (fun p => p.1)).Nodup
    exact ih (month_step acc p) (addA_keys_nodup _ _ _ h)

theorem recompute_keys_nodup (days : List (ℤ × DayEntry)) :
    ((recompute_month_totals days).map (fun p => p.1)).Nodup :=
  month_fold_keys_nodup days [] (by simp)

theorem insert_month_step_lookup_other (ms : List ((ℤ × ℤ) × MonthEntry))
    (p : (ℤ × ℤ) × ℚ) (m : ℤ × ℤ) (hne : p.1 ≠ m) :
    lookupA (insert_month_step ms p) m = lookupA ms m := by
  unfold insert_month_step
  exact lookupA_insertA_other _ _ _ _ (fun he => hne he.symm)

theorem insert_months_lookup_not_mem (totals : List ((ℤ × ℤ) × ℚ)) (m : ℤ × ℤ)
    (hm : m ∉ totals.map (fun p => p.1)) :
    ∀ months, lookupA (insert_months totals months) m = lookupA months m := by
  induction totals with
  | nil => intro months; rfl
  | cons p rest ih =>
    intro months
    have hm' : m ∉ rest.map (fun q => q.1) := by
      intro hmem
      exact hm (List.mem_cons_of_mem _ hmem)
    have hne : p.1 ≠ m := by
      intro he
      apply hm
      rw [List.map_cons, he]
      exact List.mem_cons_self _ _
    show lookupA (insert_months rest (insert_month_step months p)) m = _
    rw [ih hm' (insert_month_step months p)]
    exact insert_month_step_lookup_other months p m hne

theorem insert_months_lookup_mem (totals : List ((ℤ × ℤ) × ℚ))
    (hnd : (totals.map (fun p => p.1)).Nodup) (m : ℤ × ℤ) (v : ℚ)
    (hmem : (m, v) ∈ totals) :
    ∀ months, lookupA (insert_months totals months) m =
      some ⟨v, format_hm v⟩ := by
  induction totals with
  | nil => exact absurd hmem (List.not_mem_nil _)
  | cons p rest ih =>
    intro months
    rcases List.mem_cons.mp hmem with hp | hp
    · subst hp
      have hmnotin : m ∉ rest.map (fun q => q.1) := (List.nodup_cons.mp hnd).1
      show lookupA (insert_months rest (insert_month_step months (m, v))) m = _
      rw [insert_months_lookup_not_mem rest m hmnotin (insert_month_step months (m, v))]
      unfold insert_month_step
      exact lookupA_insertA_self _ _ _
    · have hm_in : m ∈ rest.map (fun q => q.1) := by
        have := List.mem_map_of_mem (fun q : (ℤ × ℤ) × ℚ => q.1) hp
        exact this
      have hkey : p.1 ≠ m := by
        have h1 : p.1 ∉ rest.map (fun q => q.1) := (List.nodup_cons.mp hnd).1
        intro he
        rw [he] at h1
        exact h1 hm_in
      have hrest : (rest.map (fun q => q.1)).Nodup := (List.nodup_cons.mp hnd).2
      show lookupA (insert_months rest (insert_month_step months p)) m = _
      rw [ih hrest hp (insert_month_step months p)]

/-- Claim C7 counterexample: `archive_overtime` never removes stale month
entries.  Merging empty fresh totals into a ledger whose months map holds
an entry for 2025-01 while its days map is empty leaves that month entry
in place with total 5 ≠ 0, even though no day entry contributes to it —
so the months map does not always reflect the day entries exactly. -/
theorem month_totals_stale_entry_counterexample :
    (archive_overtime 0 [] [] ⟨2, [], [((2025, 1), ⟨5, "5:00"⟩)]⟩).months =
      [((2025, 1), ⟨5, "5:00"⟩)] ∧
    (archive_overtime 0 [] [] ⟨2, [], [((2025, 1), ⟨5, "5:00"⟩)]⟩).days = [] ∧
    month_sum (2025, 1)
      (archive_overtime 0 [] [] ⟨2, [], [((2025, 1), ⟨5, "5:00"⟩)]⟩).days = 0 ∧
    (5 : ℚ) ≠ 0 :=
  ⟨rfl, rfl, rfl, by norm_num⟩

/-- Claim C7 (amended): after every merge, every month that has at least
one matching day entry in the resulting ledger stores exactly the sum of
the hours of the day entries of that month; month entries whose month
matches no day entry are left as they were before the merge (stale
entries are not removed). -/
theorem month_totals_match_day_entries (today : ℤ) (daily_hours : List (ℤ × ℚ))
    (daily_projects : List (ℤ × List (String × ProjectHours)))
    (summary : DailySummaryFile) (m : ℤ × ℤ)
    (hm : m ∈ (archive_overtime today daily_hours daily_projects summary).days.map
        (fun p => month_of p.1)) :
    lookupA (archive_overtime today daily_hours daily_projects summary).months m =
      some ⟨month_sum m (archive_overtime today daily_hours daily_projects summary).days,
            format_hm (month_sum m
              (archive_overtime today daily_hours daily_projects summary).days)⟩ := by
  have hm' : m ∈ (archive_days today daily_projects daily_hours summary.days).map
      (fun p => month_of p.1) := hm
  have htot : lookupA
      (recompute_month_totals (archive_days today daily_projects daily_hours summary.days)) m =
      some (month_sum m (archive_days today daily_projects daily_hours summary.days)) := by
    have hb := month_fold_lookup_none m
      (archive_days today daily_projects daily_hours summary.days) [] rfl
    rw [if_pos hm'] at hb
    exact hb
  have hmem := lookupA_mem _ _ _ htot
  have hnd := recompute_keys_nodup (archive_days today daily_projects daily_hours summary.days)
  exact insert_months_lookup_mem _ hnd m _ hmem summary.months

/-- Witness for C7 (amended) at a concrete merge: the month 2025-08 of the
single archived day 2025-08-04 carries exactly that day's hours. -/
theorem month_totals_match_day_entries_witness :
    ((2025:ℤ), (8:ℤ)) ∈ (archive_overtime 0 [(20304, 2)] [] ⟨2, [], []⟩).days.map
        (fun p => month_of p.1) ∧
    lookupA (archive_overtime 0 [(20304, 2)] [] ⟨2, [], []⟩).months (2025, 8) =
      some ⟨month_sum (2025, 8) (archive_overtime 0 [(20304, 2)] [] ⟨2, [], []⟩).days,
            format_hm (month_sum (2025, 8)
              (archive_overtime 0 [(20304, 2)] [] ⟨2, [], []⟩).days)⟩ :=
  ⟨by decide, month_totals_match_day_entries 0 [(20304, 2)] [] ⟨2, [], []⟩ (2025, 8)
    (by decide)⟩

/-! ### Claim C8: idempotence of the ledger merge -/

theorem archive_days_idem (today : ℤ)
    (dp : List (ℤ × List (String × ProjectHours))) (dh : List (ℤ × ℚ))
    (hnd : (dh.map (fun p => p.1)).Nodup) (days0 : List (ℤ × DayEntry)) :
    archive_days today dp dh (archive_days today dp dh days0) =
      archive_days today dp dh days0 := by
  show dh.foldl (archive_step today dp) (archive_days today dp dh days0) =
    archive_days today dp dh days0
  apply foldl_id
  intro p hp
  unfold archive_step
  by_cases ht : p.1 = today
  · rw [if_pos ht]
  · rw [if_neg ht]
    have hlk := archive_days_lookup_mem today dp dh hnd p.1 p.2
      (by rw [Prod.mk.eta]; exact hp) ht days0
    by_cases hu : should_update (lookupA days0 p.1)
    · rw [if_pos hu] at hlk
      by_cases hu1 : should_update
          (lookupA (archive_days today dp dh days0) p.1)
      · rw [if_pos hu1]
        exact insertA_self_of_lookup _ _ _ hlk
      · rw [if_neg hu1]
    · rw [if_neg hu] at hlk
      rw [if_neg (show ¬ (should_update
          (lookupA (archive_days today dp dh days0) p.1) = true) by
        rw [hlk]
        exact hu)]

theorem insert_months_idem (totals : List ((ℤ × ℤ) × ℚ))
    (hnd : (totals.map (fun p => p.1)).Nodup)
    (months : List ((ℤ × ℤ) × MonthEntry)) :
    insert_months totals (insert_months totals months) =
      insert_months totals months := by
  show totals.foldl insert_month_step (insert_months totals months) =
    insert_months totals months
  apply foldl_id
  intro p hp
  unfold insert_month_step
  apply insertA_self_of_lookup
  exact insert_months_lookup_mem totals hnd p.1 p.2
    (by rw [Prod.mk.eta]; exact hp) months

/-- Claim C8: merging the same fresh day totals and project totals (with
distinct dates) into the ledger twice in a row yields the same ledger
state as merging once.  Dates written by the first merge become finalized
entries holding the same fresh hours, so the second pass either skips
them (finalized, nonzero) or rewrites the identical entry (hours exactly
0), and the recomputed month totals coincide — finalized entries are
stable fixed points. -/
theorem archive_overtime_idempotent (today : ℤ) (daily_hours : List (ℤ × ℚ))
    (daily_projects : List (ℤ × List (String × ProjectHours)))
    (summary : DailySummaryFile)
    (hnd : (daily_hours.map (fun p => p.1)).Nodup) :
    archive_overtime today daily_hours daily_projects
        (archive_overtime today daily_hours daily_projects summary) =
      archive_overtime today daily_hours daily_projects summary := by
  have hdays := archive_days_idem today daily_projects daily_hours hnd summary.days
  show DailySummaryFile.mk 2
      (archive_days today daily_projects daily_hours
        (archive_days today daily_projects daily_hours summary.days))
      (insert_months
        (recompute_month_totals (archive_days today daily_projects daily_hours
          (archive_days today daily_projects daily_hours summary.days)))
        (insert_months
          (recompute_month_totals
            (archive_days today daily_projects daily_hours summary.days))
          summary.months)) =
    DailySummaryFile.mk 2 (archive_days today daily_projects daily_hours summary.days)
      (insert_months
        (recompute_month_totals
          (archive_days today daily_projects daily_hours summary.days))
        summary.months)
  rw [hdays]
  rw [insert_months_idem _ (recompute_keys_nodup _) summary.months]

/-- Witness for C8 at a concrete merge of one fresh day into an empty
ledger. -/
theorem archive_overtime_idempotent_witness :
    archive_overtime 0 [(20304, 2)] []
        (archive_overtime 0 [(20304, 2)] [] ⟨2, [], []⟩) =
      archive_overtime 0 [(20304, 2)] [] ⟨2, [], []⟩ :=
  archive_overtime_idempotent 0 [(20304, 2)] [] ⟨2, [], []⟩ (by decide)
